import Mathlib

/- Verification of the simple-menu navigation core.

   Python strings are embedded as lists of characters (`Str`).  The helper
   functions below reproduce the exact semantics of the Python string
   operations the code uses: `str.split(sep)` for a nonempty separator
   (`pySplit`), `sep.join(parts)` (`pyJoin`), `str.strip()` / `str.rstrip()`
   restricted to the ASCII whitespace actually occurring in the data
   (`pyStrip` / `pyRstrip`), `str.lower()` (`pyLower`) and
   `str.replace(old, new)` for nonempty `old` (`pyReplace`). -/

abbrev Str := List Char

/-- Fuel-driven worker for Python `str.split(sep)` with nonempty `sep`:
structural recursion on the fuel keeps the function kernel-computable.
The fuel is always instantiated above the length of the string. -/
def pySplitF : Nat → Str → Str → List Str
  | 0, _, s => [s]
  | n + 1, sep, s =>
    if sep = [] then [s]
    else
      match s with
      | [] => [[]]
      | c :: rest =>
        if sep.isPrefixOf (c :: rest) then
          [] :: pySplitF n sep ((c :: rest).drop sep.length)
        else
          match pySplitF n sep rest with
          | [] => [[c]]
          | t :: ts => (c :: t) :: ts

/-- Python `s.split(sep)` for nonempty `sep` (the source always passes a
configured nonempty token separator): greedy leftmost non-overlapping
matches, keeping empty pieces.  For `sep = []` we return `[s]` (Python
would raise; no call site uses an empty separator). -/
def pySplit (sep s : Str) : List Str := pySplitF (s.length + 1) sep s

/-- Python `sep.join(parts)`. -/
def pyJoin (sep : Str) : List Str → Str
  | [] => []
  | [x] => x
  | x :: y :: xs => x ++ sep ++ pyJoin sep (y :: xs)

/-- Whitespace predicate used by `strip`/`rstrip` (ASCII whitespace). -/
def pySpace (c : Char) : Bool := c = ' ' ∨ c = '\t' ∨ c = '\n' ∨ c = '\r'

/-- Python `s.strip()` (both-ends whitespace trim). -/
def pyStrip (s : Str) : Str :=
  ((s.dropWhile pySpace).reverse.dropWhile pySpace).reverse

/-- Python `s.rstrip()` (right-end whitespace trim). -/
def pyRstrip (s : Str) : Str :=
  (s.reverse.dropWhile pySpace).reverse

/-- Python `s.lower()` (ASCII case folding suffices for the item names). -/
def pyLower (s : Str) : Str := s.map Char.toLower

/-- Python `old in s` for strings: does `old` occur as a contiguous
substring of `s`? -/
def containsSub (old : Str) : Str → Bool
  | [] => old.isPrefixOf []
  | c :: rest => old.isPrefixOf (c :: rest) || containsSub old rest

/-- Python `s.replace(old, new)` for nonempty `old`, via the identity
`s.replace(old, new) == new.join(s.split(old))`. -/
def pyReplace (s old new : Str) : Str := pyJoin new (pySplit old s)

/- Unfolding lemmas for `pySplit`: the fuel never runs out, so `pySplit`
   satisfies the intended recursion equations. -/

theorem pySplitF_succ_emptySep (n : Nat) (s : Str) :
    pySplitF (n + 1) [] s = [s] := by
  simp only [pySplitF]
  simp

theorem pySplitF_succ_nil {sep : Str} (n : Nat) (hsep : sep ≠ []) :
    pySplitF (n + 1) sep [] = [[]] := by
  simp only [pySplitF, if_neg hsep]

theorem pySplitF_succ_pos {sep : Str} (n : Nat) (c : Char) (rest : Str)
    (hsep : sep ≠ []) (hpre : sep.isPrefixOf (c :: rest)) :
    pySplitF (n + 1) sep (c :: rest) =
      [] :: pySplitF n sep ((c :: rest).drop sep.length) := by
  simp only [pySplitF, if_neg hsep, if_pos hpre]

theorem pySplitF_succ_neg {sep : Str} (n : Nat) (c : Char) (rest : Str)
    (hsep : sep ≠ []) (hpre : ¬ sep.isPrefixOf (c :: rest)) :
    pySplitF (n + 1) sep (c :: rest) =
      match pySplitF n sep rest with
      | [] => [[c]]
      | t :: ts => (c :: t) :: ts := by
  simp only [pySplitF, if_neg hsep, if_neg hpre]

theorem sep_length_pos {sep : Str} (hsep : sep ≠ []) : 1 ≤ sep.length := by
  cases sep with
  | nil => exact absurd rfl hsep
  | cons a as => simp

theorem pySplitF_congr (sep : Str) :
    ∀ n m s, s.length < n → s.length < m → pySplitF n sep s = pySplitF m sep s := by
  intro n
  induction n with
  | zero =>
    intro m s hn _
    exact absurd hn (Nat.not_lt_zero _)
  | succ n ih =>
    intro m s hn hm
    match m, hm with
    | m + 1, hm =>
      by_cases hsep : sep = []
      · subst hsep
        rw [pySplitF_succ_emptySep, pySplitF_succ_emptySep]
      · match s, hn, hm with
        | [], _, _ => rw [pySplitF_succ_nil n hsep, pySplitF_succ_nil m hsep]
        | c :: rest, hn, hm =>
          by_cases hpre : sep.isPrefixOf (c :: rest)
          · rw [pySplitF_succ_pos n c rest hsep hpre,
              pySplitF_succ_pos m c rest hsep hpre]
            have hd : ((c :: rest).drop sep.length).length < (c :: rest).length := by
              have h1 := sep_length_pos hsep
              simp only [List.length_drop, List.length_cons]
              omega
            rw [ih _ _ (Nat.lt_of_lt_of_le hd (Nat.lt_succ_iff.mp hn))
                (Nat.lt_of_lt_of_le hd (Nat.lt_succ_iff.mp hm))]
          · rw [pySplitF_succ_neg n c rest hsep hpre,
              pySplitF_succ_neg m c rest hsep hpre]
            have hr : rest.length < n := by
              simp only [List.length_cons] at hn
              omega
            have hr' : rest.length < m := by
              simp only [List.length_cons] at hm
              omega
            rw [ih _ _ hr hr']

theorem pySplit_emptySep (s : Str) : pySplit [] s = [s] := by
  rw [pySplit, pySplitF_succ_emptySep]

theorem pySplit_nil (sep : Str) : pySplit sep [] = [[]] := by
  by_cases hsep : sep = []
  · subst hsep
    rw [pySplit_emptySep]
  · rw [pySplit, pySplitF_succ_nil _ hsep]

theorem pySplit_cons_pos {sep : Str} (c : Char) (rest : Str)
    (hsep : sep ≠ []) (hpre : sep.isPrefixOf (c :: rest)) :
    pySplit sep (c :: rest) = [] :: pySplit sep ((c :: rest).drop sep.length) := by
  rw [pySplit, pySplitF_succ_pos _ c rest hsep hpre]
  have hd : ((c :: rest).drop sep.length).length < (c :: rest).length := by
    have h1 := sep_length_pos hsep
    simp only [List.length_drop, List.length_cons]
    omega
  rw [pySplitF_congr sep _ _ _ hd (Nat.lt_succ_self _)]
  rfl

theorem pySplit_cons_neg {sep : Str} (c : Char) (rest : Str)
    (hsep : sep ≠ []) (hpre : ¬ sep.isPrefixOf (c :: rest)) :
    pySplit sep (c :: rest) =
      match pySplit sep rest with
      | [] => [[c]]
      | t :: ts => (c :: t) :: ts := by
  rw [pySplit, pySplitF_succ_neg _ c rest hsep hpre]
  rw [pySplitF_congr sep _ _ rest (by simp) (Nat.lt_succ_self _)]
  rfl

theorem pySplit_ne_nil (sep s : Str) : pySplit sep s ≠ [] := by
  by_cases hsep : sep = []
  · subst hsep
    rw [pySplit_emptySep]
    simp
  · match s with
    | [] =>
      rw [pySplit_nil]
      simp
    | c :: rest =>
      by_cases hpre : sep.isPrefixOf (c :: rest)
      · rw [pySplit_cons_pos c rest hsep hpre]
        simp
      · rw [pySplit_cons_neg c rest hsep hpre]
        cases pySplit sep rest with
        | nil => simp
        | cons t ts => simp

/- Algebra of `pySplit` / `pyJoin`. -/

/-- A piece is clean for a separator when it shares no character with it;
then no separator occurrence can start inside the piece or straddle its
right boundary. -/
def CleanFor (sep p : Str) : Prop := ∀ c ∈ p, c ∉ sep

instance (sep p : Str) : Decidable (CleanFor sep p) :=
  List.decidableBAll (fun c => c ∉ sep) p

theorem pyJoin_cons {sep : Str} (x : Str) {xs : List Str} (hxs : xs ≠ []) :
    pyJoin sep (x :: xs) = x ++ sep ++ pyJoin sep xs := by
  cases xs with
  | nil => exact absurd rfl hxs
  | cons y ys => rfl

theorem pyJoin_cons_cons {sep : Str} (c : Char) (t : Str) (ts : List Str) :
    pyJoin sep ((c :: t) :: ts) = c :: pyJoin sep (t :: ts) := by
  cases ts with
  | nil => rfl
  | cons u us =>
    rw [pyJoin_cons (c :: t) (by simp), pyJoin_cons t (by simp)]
    simp

theorem not_isPrefixOf_of_clean {sep : Str} (hsep : sep ≠ []) {a : Char} {s : Str}
    (ha : a ∉ sep) : ¬ sep.isPrefixOf (a :: s) := by
  intro h
  rcases List.isPrefixOf_iff_prefix.mp h with ⟨t, ht⟩
  cases sep with
  | nil => exact hsep rfl
  | cons d ds =>
    have : d = a := by
      have := congrArg (fun l => l.head?) ht
      simpa using this
    exact ha (by simp [← this])

/-- Splitting `p ++ sep ++ s` where `p` is clean for `sep` peels off `p`. -/
theorem pySplit_append_clean {sep : Str} (hsep : sep ≠ []) :
    ∀ (p s : Str), CleanFor sep p →
      pySplit sep (p ++ sep ++ s) = p :: pySplit sep s := by
  intro p
  induction p with
  | nil =>
    intro s _
    have hpre : sep.isPrefixOf (sep ++ s) :=
      List.isPrefixOf_iff_prefix.mpr (List.prefix_append sep s)
    cases hs : sep with
    | nil => exact absurd hs hsep
    | cons d ds =>
      subst hs
      have h1 : pySplit (d :: ds) (d :: (ds ++ s)) =
          [] :: pySplit (d :: ds) ((d :: (ds ++ s)).drop (d :: ds).length) := by
        apply pySplit_cons_pos _ _ hsep
        simp only [List.cons_append] at hpre
        exact hpre
      have h2 : (d :: (ds ++ s)).drop (d :: ds).length = s := by
        have h3 := List.drop_left (d :: ds) s
        simp only [List.cons_append] at h3
        exact h3
      simpa [h2] using h1
  | cons a p ih =>
    intro s hclean
    have ha : a ∉ sep := hclean a (by simp)
    have hpre : ¬ sep.isPrefixOf (a :: (p ++ sep ++ s)) :=
      not_isPrefixOf_of_clean hsep ha
    have hstep := pySplit_cons_neg a (p ++ sep ++ s) hsep hpre
    have hsub : pySplit sep (p ++ sep ++ s) = p :: pySplit sep s :=
      ih s (fun c hc => hclean c (by simp [hc]))
    calc pySplit sep ((a :: p) ++ sep ++ s)
        = pySplit sep (a :: (p ++ sep ++ s)) := by simp
      _ = (a :: p) :: pySplit sep s := by rw [hstep, hsub]

/-- Splitting a string clean for the separator yields the single piece. -/
theorem pySplit_clean_single {sep : Str} (hsep : sep ≠ []) :
    ∀ p : Str, CleanFor sep p → pySplit sep p = [p] := by
  intro p
  induction p with
  | nil =>
    intro _
    exact pySplit_nil sep
  | cons a p ih =>
    intro hclean
    have ha : a ∉ sep := hclean a (by simp)
    rw [pySplit_cons_neg a p hsep (not_isPrefixOf_of_clean hsep ha),
      ih (fun c hc => hclean c (by simp [hc]))]

/-- A string with no separator occurrence splits into the single piece. -/
theorem pySplit_of_not_containsSub {sep : Str} (hsep : sep ≠ []) :
    ∀ v : Str, containsSub sep v = false → pySplit sep v = [v] := by
  intro v
  induction v with
  | nil =>
    intro _
    exact pySplit_nil sep
  | cons c rest ih =>
    intro hno
    have hsplit : sep.isPrefixOf (c :: rest) = false ∧ containsSub sep rest = false := by
      have h := hno
      rw [containsSub] at h
      exact ⟨by simpa using (Bool.or_eq_false_iff.mp h).1,
        (Bool.or_eq_false_iff.mp h).2⟩
    rw [pySplit_cons_neg c rest hsep (by simp [hsplit.1]), ih hsplit.2]

/-- `sep.join(s.split(sep)) == s`: joining the split back is the identity. -/
theorem pyJoin_pySplit (sep : Str) (s : Str) :
    pyJoin sep (pySplit sep s) = s := by
  by_cases hsep : sep = []
  · subst hsep
    rw [pySplit_emptySep]
    rfl
  · have H : ∀ n, ∀ s : Str, s.length ≤ n → pyJoin sep (pySplit sep s) = s := by
      intro n
      induction n with
      | zero =>
        intro s hs
        have : s = [] := by
          cases s with
          | nil => rfl
          | cons a t => simp at hs
        subst this
        rw [pySplit_nil]
        rfl
      | succ n ih =>
        intro s hs
        cases s with
        | nil =>
          rw [pySplit_nil]
          rfl
        | cons c rest =>
          by_cases hpre : sep.isPrefixOf (c :: rest)
          · rw [pySplit_cons_pos c rest hsep hpre]
            rcases List.isPrefixOf_iff_prefix.mp hpre with ⟨t, ht⟩
            have hdrop : (c :: rest).drop sep.length = t := by
              rw [← ht]
              exact List.drop_left sep t
            have hlen : t.length ≤ n := by
              have h1 := sep_length_pos hsep
              have h2 := congrArg List.length ht
              simp only [List.length_append, List.length_cons] at h2
              simp only [List.length_cons] at hs
              omega
            have hrec := ih t hlen
            rw [hdrop]
            cases hsp : pySplit sep t with
            | nil => exact absurd hsp (pySplit_ne_nil sep t)
            | cons l ls =>
              rw [pyJoin_cons [] (by simp)]
              rw [hsp] at hrec
              rw [hrec, List.nil_append, ht]
          · rw [pySplit_cons_neg c rest hsep hpre]
            have hrec := ih rest (by simp only [List.length_cons] at hs; omega)
            cases hsp : pySplit sep rest with
            | nil => exact absurd hsp (pySplit_ne_nil sep rest)
            | cons t ts =>
              rw [hsp] at hrec
              show pyJoin sep ((c :: t) :: ts) = c :: rest
              rw [pyJoin_cons_cons, hrec]
    exact H s.length s (Nat.le_refl _)

/-- Splitting the join of clean pieces recovers the pieces. -/
theorem pySplit_pyJoin_clean {sep : Str} (hsep : sep ≠ []) :
    ∀ parts : List Str, parts ≠ [] → (∀ p ∈ parts, CleanFor sep p) →
      pySplit sep (pyJoin sep parts) = parts := by
  intro parts
  induction parts with
  | nil =>
    intro h _
    exact absurd rfl h
  | cons p rest ih =>
    intro _ hclean
    cases rest with
    | nil =>
      show pySplit sep p = [p]
      exact pySplit_clean_single hsep p (hclean p (by simp))
    | cons q qs =>
      rw [pyJoin_cons p (by simp),
        pySplit_append_clean hsep p _ (hclean p (by simp)),
        ih (by simp) (fun r hr => hclean r (by simp [hr]))]

/-- Splitting the join of clean leading pieces followed by an arbitrary
remainder peels the leading pieces off the remainder's split. -/
theorem pySplit_pyJoin_append {sep : Str} (hsep : sep ≠ []) :
    ∀ (F rest : List Str), rest ≠ [] → (∀ p ∈ F, CleanFor sep p) →
      pySplit sep (pyJoin sep (F ++ rest)) =
        F ++ pySplit sep (pyJoin sep rest) := by
  intro F
  induction F with
  | nil =>
    intro rest _ _
    simp
  | cons f F ih =>
    intro rest hrest hclean
    have hne : F ++ rest ≠ [] := by
      intro h
      rcases List.append_eq_nil.mp h with ⟨_, h2⟩
      exact hrest h2
    rw [List.cons_append, pyJoin_cons f hne,
      pySplit_append_clean hsep f _ (hclean f (by simp)),
      ih rest hrest (fun p hp => hclean p (by simp [hp]))]
    simp

/- Data model: ItemTextType (a Python StrEnum) and ItemTexts (a dataclass).
   `ItemTextType.val` is the StrEnum value (the string stored in the
   dataclass field `type`); the enum member names are matched by
   `itemTextTypeOfName`, which models the membership test
   `tokens[0].strip() in (i.name for i in ItemTextType)` followed by the
   name indexing `ItemTextType[tokens[0].strip()]`. -/

inductive ItemTextType where
  | menu
  | action
  | notification
  | raw
deriving DecidableEq

def ItemTextType.val : ItemTextType → Str
  | .menu => "<menu>".data
  | .action => "<action>".data
  | .notification => "<notification>".data
  | .raw => []

def itemTextTypeOfName (s : Str) : Option ItemTextType :=
  if s = "menu".data then some .menu
  else if s = "action".data then some .action
  else if s = "notification".data then some .notification
  else if s = "raw".data then some .raw
  else none

/-- The `ItemTexts` dataclass: all fields default to the empty string
(`type` defaults to `ItemTextType.raw`, whose StrEnum value is `""`). -/
structure ItemTexts where
  type : Str := []
  category : Str := []
  subcategory : Str := []
  status : Str := []
  text : Str := []
  menu : Str := []
deriving DecidableEq

/-- Branch logic of `BaseItem.str2item_texts` on the computed token list:
more than four tokens whose first token (trimmed) names a text type are
interpreted as type/category/subcategory/status and display text (trimmed
unless the type is `raw`), the remainder being `tokens[5:]` re-joined;
otherwise the default `ItemTexts` and the whole input string. -/
def decodeTokens (token_separator : Str) (text : Str) : List Str → ItemTexts × Str
  | t0 :: t1 :: t2 :: t3 :: t4 :: rest =>
    match itemTextTypeOfName (pyStrip t0) with
    | some item_type =>
      ({ type := item_type.val
         category := pyStrip t1
         subcategory := pyStrip t2
         status := pyStrip t3
         text := if item_type = ItemTextType.raw then t4 else pyStrip t4
         menu := [] },
       pyJoin token_separator rest)
    | none => ({}, text)
  | _ => ({}, text)

/-- `BaseItem.str2item_texts(text, token_separator)`. -/
def str2item_texts (text : Str) (token_separator : Str) : ItemTexts × Str :=
  decodeTokens token_separator text (pySplit token_separator text)

theorem decodeTokens_short (token_separator text : Str) :
    ∀ ts : List Str, ts.length ≤ 4 → decodeTokens token_separator text ts = ({}, text) := by
  intro ts hlen
  match ts with
  | [] => rfl
  | [_] => rfl
  | [_, _] => rfl
  | [_, _, _] => rfl
  | [_, _, _, _] => rfl
  | _ :: _ :: _ :: _ :: _ :: _ => simp at hlen

theorem decodeTokens_noType (token_separator text : Str) :
    ∀ ts : List Str, itemTextTypeOfName (pyStrip (ts.getD 0 [])) = none →
      decodeTokens token_separator text ts = ({}, text) := by
  intro ts hnone
  match ts with
  | [] => rfl
  | [_] => rfl
  | [_, _] => rfl
  | [_, _, _] => rfl
  | [_, _, _, _] => rfl
  | t0 :: t1 :: t2 :: t3 :: t4 :: rest =>
    simp only [List.getD] at hnone
    simp only [decodeTokens]
    rw [show (t0 :: t1 :: t2 :: t3 :: t4 :: rest).get? 0 = some t0 from rfl] at hnone
    simp only [Option.getD] at hnone
    rw [hnone]

/-- Decomposition used by C1: splitting the join of the five clean leading
fields and an arbitrary token remainder. -/
theorem pySplit_five_fields {d : Str} (hd : d ≠ [])
    (T C S St Tx : Str) (rest : List Str)
    (hT : CleanFor d T) (hC : CleanFor d C) (hS : CleanFor d S)
    (hSt : CleanFor d St) (hTx : CleanFor d Tx) :
    pySplit d (pyJoin d ([T, C, S, St, Tx] ++ rest)) =
      [T, C, S, St, Tx] ++ pySplit d (pyJoin d rest) ∨
    (rest = [] ∧ pySplit d (pyJoin d ([T, C, S, St, Tx] ++ rest)) = [T, C, S, St, Tx]) := by
  have hcleanF : ∀ p ∈ [T, C, S, St, Tx], CleanFor d p := by
    intro p hp
    simp only [List.mem_cons, List.not_mem_nil, or_false] at hp
    rcases hp with h | h | h | h | h <;> subst h <;> assumption
  cases rest with
  | nil =>
    right
    refine ⟨rfl, ?_⟩
    rw [List.append_nil]
    exact pySplit_pyJoin_clean hd _ (by simp) hcleanF
  | cons r rs =>
    left
    exact pySplit_pyJoin_append hd _ _ (by simp) hcleanF

/-- C1 (amended): decoding `join(d, [T, C, S, St, Text] ++ Rest)` — with the
five leading fields sharing no character with the delimiter and the trimmed
type token naming a text type — yields that type, the trimmed category,
subcategory and status, the text (trimmed unless the type is `raw`), and
`join(d, Rest)` as the remainder. -/
theorem str2item_texts_decodes_join
    (d T C S St Tx : Str) (rest : List Str) (ty : ItemTextType)
    (hd : d ≠ [])
    (hT : CleanFor d T) (hC : CleanFor d C) (hS : CleanFor d S)
    (hSt : CleanFor d St) (hTx : CleanFor d Tx)
    (hty : itemTextTypeOfName (pyStrip T) = some ty) :
    str2item_texts (pyJoin d ([T, C, S, St, Tx] ++ rest)) d =
      ({ type := ty.val
         category := pyStrip C
         subcategory := pyStrip S
         status := pyStrip St
         text := if ty = ItemTextType.raw then Tx else pyStrip Tx
         menu := [] },
       pyJoin d rest) := by
  rcases pySplit_five_fields hd T C S St Tx rest hT hC hS hSt hTx with hsp | ⟨hrest, hsp⟩
  · rw [str2item_texts, hsp]
    cases hsr : pySplit d (pyJoin d rest) with
    | nil => exact absurd hsr (pySplit_ne_nil _ _)
    | cons u us =>
      simp only [List.cons_append, List.nil_append, decodeTokens, hty]
      have hjoin : pyJoin d (u :: us) = pyJoin d rest := by
        rw [← hsr]
        exact pyJoin_pySplit d (pyJoin d rest)
      rw [hjoin]
  · subst hrest
    rw [str2item_texts, hsp]
    simp only [decodeTokens, hty]

/-- C1 counterexample: the claim says category is returned exactly as
supplied, but the code trims it — with delimiter `::` and category `\x20a\x20`
the decoder returns category `a`. -/
theorem str2item_texts_trims_category :
    (str2item_texts ("menu:: a ::s::st::t".data) ("::".data)).1.category = "a".data ∧
    ("a".data : Str) ≠ " a ".data := by
  constructor
  · decide
  · decide

/-- Witness for C1: a concrete decode recovering all five fields and the
remainder. -/
theorem str2item_texts_decodes_join_witness :
    str2item_texts
        (pyJoin ("::".data)
          (["menu".data, "c".data, "s".data, "st".data, "t".data] ++
            ["left".data, "over".data]))
        ("::".data) =
      ({ type := ItemTextType.menu.val
         category := pyStrip ("c".data)
         subcategory := pyStrip ("s".data)
         status := pyStrip ("st".data)
         text := if ItemTextType.menu = ItemTextType.raw then "t".data
                 else pyStrip ("t".data)
         menu := [] },
       pyJoin ("::".data) ["left".data, "over".data]) :=
  str2item_texts_decodes_join ("::".data) ("menu".data) ("c".data) ("s".data)
    ("st".data) ("t".data) ["left".data, "over".data] ItemTextType.menu
    (by decide) (by decide) (by decide) (by decide) (by decide) (by decide)
    (by decide)

/-- C2: a raw value with no delimiter occurrence decodes to the default
`ItemTexts` with the whole input as remainder; more generally any input
whose split has at most four tokens, or whose first token does not name a
text type, decodes to the default with the whole input as remainder. -/
theorem str2item_texts_default_on_unstructured
    (d v : Str) (hd : d ≠ []) (hocc : containsSub d v = false) :
    str2item_texts v d = ({}, v) ∧
    ∀ s : Str,
      ((pySplit d s).length ≤ 4 ∨
        itemTextTypeOfName (pyStrip ((pySplit d s).getD 0 [])) = none) →
      str2item_texts s d = ({}, s) := by
  constructor
  · rw [str2item_texts, pySplit_of_not_containsSub hd v hocc]
    rfl
  · intro s hcase
    rcases hcase with hlen | hnone
    · rw [str2item_texts, decodeTokens_short _ _ _ hlen]
    · rw [str2item_texts, decodeTokens_noType _ _ _ hnone]

/-- Witness for C2: the spec's own example input decodes to the default. -/
theorem str2item_texts_default_witness :
    str2item_texts ("just a value".data) ("::".data) = ({}, "just a value".data) :=
  (str2item_texts_default_on_unstructured ("::".data) ("just a value".data)
    (by decide) (by decide)).1

/- Interface adapters (interface.py).  `run_menu` performs process I/O and
   then a pure decision on (timeout flag, exit code, decoded output); the
   decision logic is embedded below.  `RunResult.exited` models `sys.exit`,
   and `RunResult.unboundLocalError` models reaching the final `return`
   with the local `next_action` never assigned. -/

inductive NextAction where
  | selected
  | restart
  | back
  | quit
deriving DecidableEq

structure MItem where
  texts : ItemTexts
  identifier : Str
deriving DecidableEq

inductive RunResult where
  | ret (action : NextAction) (item : Option MItem)
  | exited (code : Int)
  | unboundLocalError
deriving DecidableEq

def QUIT_EXIT_CODE : Int := 250

/-- `Interface.get_selected_item`: first item whose rendered menu line
equals the selected text, else `None`. -/
def get_selected_item (items : List MItem) (selected_text : Str) : Option MItem :=
  items.find? (fun it => it.texts.menu == selected_text)

/-- The `# Fixes:` block of `RofiInterface.run_menu`: freeform text with no
matching line downgrades the action to `restart`. -/
def rofiFix (next_action : NextAction) (selected_text : Option Str)
    (selected_item : Option MItem) : RunResult :=
  if selected_text.isSome && selected_item.isNone then
    RunResult.ret NextAction.restart selected_item
  else
    RunResult.ret next_action selected_item

/-- Decision logic of `RofiInterface.run_menu` after the rofi process has
finished: `stdout` is the decoded standard output, `returncode` the exit
code (10 = Ctrl-r, 11 = Ctrl-q, 1 = Esc). -/
def rofi_run_menu (items : List MItem) (timeout_raised : Bool)
    (returncode : Int) (stdout : Str) : RunResult :=
  if timeout_raised then RunResult.ret NextAction.restart none
  else
    let selected_text : Option Str :=
      if pyRstrip stdout = [] then none else some (pyRstrip stdout)
    let selected_item : Option MItem :=
      match selected_text with
      | some t => get_selected_item items t
      | none => none
    if returncode = 10 then rofiFix NextAction.restart selected_text selected_item
    else if returncode = 11 then RunResult.exited QUIT_EXIT_CODE
    else if returncode = 1 then rofiFix NextAction.back selected_text selected_item
    else
      match selected_text with
      | some _ => rofiFix NextAction.selected selected_text selected_item
      | none => RunResult.unboundLocalError

/-- Decision logic of `FzfInterface.run_menu` after the fzf process has
finished: `lines` is the decoded standard output split into lines
(`stdout.decode().splitlines()`); line 0 carries the `--expect` key, a
second line carries the selected text. -/
def fzf_run_menu (items : List MItem) (timeout_raised : Bool)
    (lines : List Str) : RunResult :=
  if timeout_raised then RunResult.ret NextAction.restart none
  else
    let key : Option Str :=
      match lines with
      | [] => none
      | l0 :: _ => some (pyRstrip l0)
    let selected_text : Option Str :=
      match lines with
      | [_, l1] => some (pyRstrip l1)
      | _ => none
    let selected_item : Option MItem :=
      match selected_text with
      | some t => get_selected_item items t
      | none => none
    if key = some ("ctrl-r".data) ∨ key = some ("f5".data) then
      RunResult.ret NextAction.restart selected_item
    else if key = some ("ctrl-q".data) then RunResult.exited QUIT_EXIT_CODE
    else if key = some ("esc".data) then RunResult.ret NextAction.back selected_item
    else if (match selected_text with
             | some t => !t.isEmpty
             | none => false) then
      RunResult.ret NextAction.selected selected_item
    else if selected_text = none then RunResult.ret NextAction.restart selected_item
    else RunResult.ret NextAction.back selected_item

theorem rofiFix_ne_unbound (a : NextAction) (st : Option Str) (si : Option MItem) :
    rofiFix a st si ≠ RunResult.unboundLocalError := by
  unfold rofiFix
  split <;> simp

theorem rofiFix_restart_back_ne_selected_none (st : Option Str) (si : Option MItem) :
    rofiFix NextAction.restart st si ≠ RunResult.ret NextAction.selected none ∧
    rofiFix NextAction.back st si ≠ RunResult.ret NextAction.selected none := by
  constructor <;> (unfold rofiFix; split <;> simp)

theorem rofiFix_selected_some_ne (t : Str) (si : Option MItem) :
    rofiFix NextAction.selected (some t) si ≠ RunResult.ret NextAction.selected none := by
  cases si with
  | none => simp [rofiFix]
  | some x => simp [rofiFix]

/-- C10: `RofiInterface.run_menu` reaches its `return` with the local
`next_action` unassigned — raising an UnboundLocalError instead of
returning — exactly when no timeout occurred, the exit code is none of
1/10/11, and the output carries no selected line; for example exit code 0
with empty output. -/
theorem rofi_run_menu_totality :
    (∀ items : List MItem,
      rofi_run_menu items false 0 [] = RunResult.unboundLocalError) ∧
    (∀ (items : List MItem) (tr : Bool) (rc : Int) (out : Str),
      rofi_run_menu items tr rc out ≠ RunResult.unboundLocalError ↔
        (tr = true ∨ rc = 1 ∨ rc = 10 ∨ rc = 11 ∨ pyRstrip out ≠ [])) := by
  constructor
  · intro items
    rfl
  · intro items tr rc out
    cases tr with
    | true =>
      constructor
      · intro _
        exact Or.inl rfl
      · intro _
        simp [rofi_run_menu]
    | false =>
      by_cases h10 : rc = 10
      · subst h10
        constructor
        · intro _
          exact Or.inr (Or.inr (Or.inl rfl))
        · intro _
          simp only [rofi_run_menu]
          simp only [Bool.false_eq_true, if_false, if_pos rfl]
          exact rofiFix_ne_unbound _ _ _
      · by_cases h11 : rc = 11
        · subst h11
          constructor
          · intro _
            exact Or.inr (Or.inr (Or.inr (Or.inl rfl)))
          · intro _
            simp [rofi_run_menu, h10]
        · by_cases h1 : rc = 1
          · subst h1
            constructor
            · intro _
              exact Or.inr (Or.inl rfl)
            · intro _
              simp only [rofi_run_menu]
              simp only [Bool.false_eq_true, if_false, if_neg h10, if_neg h11, if_pos rfl]
              exact rofiFix_ne_unbound _ _ _
          · by_cases hout : pyRstrip out = []
            · constructor
              · intro habs
                exfalso
                apply habs
                simp only [rofi_run_menu]
                simp only [Bool.false_eq_true, if_false, if_neg h10, if_neg h11,
                  if_neg h1, if_pos hout]
              · intro hcase
                rcases hcase with h | h | h | h | h
                · exact absurd h Bool.false_ne_true
                · exact absurd h h1
                · exact absurd h h10
                · exact absurd h h11
                · exact absurd hout h
            · constructor
              · intro _
                exact Or.inr (Or.inr (Or.inr (Or.inr hout)))
              · intro _
                simp only [rofi_run_menu]
                simp only [Bool.false_eq_true, if_false, if_neg h10, if_neg h11,
                  if_neg h1, if_neg hout]
                exact rofiFix_ne_unbound _ _ _

/-- Witness for C10's second conjunct at a concrete outcome: exit code 0
with a nonempty typed line does not crash. -/
theorem rofi_run_menu_totality_witness :
    rofi_run_menu [] false 0 ("x".data) ≠ RunResult.unboundLocalError ∧
    ((false = true) ∨ (0 : Int) = 1 ∨ (0 : Int) = 10 ∨ (0 : Int) = 11 ∨
      pyRstrip ("x".data) ≠ []) :=
  ⟨(rofi_run_menu_totality.2 [] false 0 ("x".data)).mpr
      (Or.inr (Or.inr (Or.inr (Or.inr (by decide))))),
    Or.inr (Or.inr (Or.inr (Or.inr (by decide))))⟩

/-- C3 (amended): for the rofi adapter a typed line matching no candidate
(no special exit code, no timeout) produces `restart` with no selection,
and rofi's `run_menu` never returns `selected` with a null item.  (The fzf
adapter does not share this guarantee — see the counterexample.) -/
theorem rofi_no_match_restart_and_never_selected_null :
    (∀ (items : List MItem) (rc : Int) (out : Str),
      rc ≠ 1 → rc ≠ 10 → rc ≠ 11 → pyRstrip out ≠ [] →
      get_selected_item items (pyRstrip out) = none →
      rofi_run_menu items false rc out = RunResult.ret NextAction.restart none) ∧
    (∀ (items : List MItem) (tr : Bool) (rc : Int) (out : Str),
      rofi_run_menu items tr rc out ≠ RunResult.ret NextAction.selected none) := by
  constructor
  · intro items rc out h1 h10 h11 hout hmatch
    simp only [rofi_run_menu]
    simp only [Bool.false_eq_true, if_false, if_neg h10, if_neg h11, if_neg h1,
      if_neg hout, hmatch]
    simp [rofiFix]
  · intro items tr rc out
    cases tr with
    | true => simp [rofi_run_menu]
    | false =>
      by_cases h10 : rc = 10
      · simp only [rofi_run_menu]
        simp only [Bool.false_eq_true, if_false, if_pos h10]
        exact (rofiFix_restart_back_ne_selected_none _ _).1
      · by_cases h11 : rc = 11
        · simp [rofi_run_menu, h10, h11]
        · by_cases h1 : rc = 1
          · simp only [rofi_run_menu]
            simp only [Bool.false_eq_true, if_false, if_neg h10, if_neg h11, if_pos h1]
            exact (rofiFix_restart_back_ne_selected_none _ _).2
          · by_cases hout : pyRstrip out = []
            · simp [rofi_run_menu, h10, h11, h1, hout]
            · simp only [rofi_run_menu]
              simp only [Bool.false_eq_true, if_false, if_neg h10, if_neg h11,
                if_neg h1, if_neg hout]
              exact rofiFix_selected_some_ne _ _

/-- Witness for C3 (amended): a concrete rofi outcome where the typed text
matches no candidate yields `restart` with no selection. -/
theorem rofi_no_match_restart_witness :
    rofi_run_menu [⟨{ text := "a".data, menu := "a".data }, "id:a".data⟩]
        false 0 ("zzz".data) = RunResult.ret NextAction.restart none :=
  rofi_no_match_restart_and_never_selected_null.1
    [⟨{ text := "a".data, menu := "a".data }, "id:a".data⟩] 0 ("zzz".data)
    (by decide) (by decide) (by decide) (by decide) (by decide)

/-- C3 counterexample: the fzf adapter, fed a selection line matching no
candidate (key line `enter`, no timeout), returns `selected` with a null
item — falsifying the claim for the fzf adapter. -/
theorem fzf_selected_null_counterexample :
    fzf_run_menu [⟨{ text := "a".data, menu := "a".data }, "id:a".data⟩]
        false ["enter".data, "x".data] =
      RunResult.ret NextAction.selected none := by
  decide

/- Rendering (Interface.format_items_text).  `subst` abstracts the
   adapter-specific `text_apply_tokens` icon substitution, which the
   rendering logic merely applies to every formatted field. -/

/-- Python `max` over the nonempty length lists used below (0 floor is
sound for natural lengths). -/
def maxNat (l : List Nat) : Nat := l.foldr max 0

/-- Python format spec `x:<n` (left align, pad with spaces to width n). -/
def ljust (n : Nat) (s : Str) : Str := s ++ List.replicate (n - s.length) ' '

/-- Python format spec `x:>n` (right align, pad with spaces to width n). -/
def rjust (n : Nat) (s : Str) : Str := List.replicate (n - s.length) ' ' ++ s

/-- `Interface.formatted_texts`: category/subcategory/status are stripped
then substituted; type and text are substituted as-is. -/
def formatted_texts (subst : Str → Str) (t : ItemTexts) : ItemTexts :=
  { type := subst t.type
    category := subst (pyStrip t.category)
    subcategory := subst (pyStrip t.subcategory)
    status := subst (pyStrip t.status)
    text := subst t.text
    menu := [] }

/-- The non-raw items (`i.texts.type != ItemTextType.raw`, raw's value
being the empty string). -/
def nonRawOf (items : List ItemTexts) : List ItemTexts :=
  items.filter (fun t => t.type != ([] : Str))

/-- Maximum formatted length of one field over the non-raw items. -/
def fieldMax (subst : Str → Str) (items : List ItemTexts)
    (fld : ItemTexts → Str) : Nat :=
  maxNat ((nonRawOf items).map (fun t => (fld (formatted_texts subst t)).length))

/-- One rendered non-raw menu line, exactly as built in
`format_items_text`: leading space plus left-aligned type, then (when the
column's maximum width is nonzero) right-aligned category after a space,
slash-prefixed left-aligned subcategory (or blanks when the item has
none), right-aligned status after two spaces, and the unpadded text after
two spaces. -/
def buildMenuLine (f : ItemTexts)
    (type_len category_len subcategory_len status_len text_len : Nat) : Str :=
  (' ' :: ljust type_len f.type)
  ++ (if category_len ≠ 0 then ' ' :: rjust category_len f.category else [])
  ++ (if subcategory_len ≠ 0 then
        (if f.subcategory ≠ [] then '/' :: ljust subcategory_len f.subcategory
         else List.replicate (subcategory_len + 1) ' ')
      else [])
  ++ (if status_len ≠ 0 then ' ' :: ' ' :: rjust status_len f.status else [])
  ++ (if text_len ≠ 0 then ' ' :: ' ' :: f.text else [])

/-- `Interface.format_items_text`: sets each item's `menu` line — raw
items get their literal text, non-raw items the fixed-width column
layout computed from the per-field maxima over all non-raw items. -/
def format_items_text (subst : Str → Str) (items : List ItemTexts) :
    List ItemTexts :=
  if (nonRawOf items).isEmpty then
    items.map (fun t => if t.type == ([] : Str) then { t with menu := t.text } else t)
  else
    items.map (fun t =>
      if t.type == ([] : Str) then { t with menu := t.text }
      else
        { t with menu :=
            (buildMenuLine (formatted_texts subst t)
              (fieldMax subst items ItemTexts.type)
              (fieldMax subst items ItemTexts.category)
              (fieldMax subst items ItemTexts.subcategory)
              (fieldMax subst items ItemTexts.status)
              (fieldMax subst items ItemTexts.text)) })

/-- `BaseItem.visible`: `bool(self.texts.text)`. -/
def visible (t : ItemTexts) : Bool := !t.text.isEmpty

theorem le_maxNat {l : List Nat} {x : Nat} (hx : x ∈ l) : x ≤ maxNat l := by
  induction l with
  | nil => simp at hx
  | cons a t ih =>
    rcases List.mem_cons.mp hx with h | h
    · subst h
      exact Nat.le_max_left _ _
    · exact Nat.le_trans (ih h) (Nat.le_max_right _ _)

theorem length_ljust {n : Nat} {s : Str} (h : s.length ≤ n) :
    (ljust n s).length = n := by
  simp only [ljust, List.length_append, List.length_replicate]
  omega

theorem length_rjust {n : Nat} {s : Str} (h : s.length ≤ n) :
    (rjust n s).length = n := by
  simp only [rjust, List.length_append, List.length_replicate]
  omega

theorem field_le_fieldMax (subst : Str → Str) (items : List ItemTexts)
    (fld : ItemTexts → Str) {t : ItemTexts} (ht : t ∈ items) (hnr : t.type ≠ []) :
    (fld (formatted_texts subst t)).length ≤ fieldMax subst items fld := by
  apply le_maxNat
  apply List.mem_map_of_mem
  simp only [nonRawOf, List.mem_filter]
  exact ⟨ht, by simp [hnr]⟩

/-- C4 (amended): after `format_items_text`, item order and count are kept;
a raw item's menu line is its literal text; a non-raw item's menu line is
the fixed-width column layout in which type, category, subcategory and
status are padded to exactly the per-field maxima over the non-raw items
(the text column is appended unpadded, and the category/subcategory/status
and text columns are omitted when their maximum is zero, while the type
column is always present); and an item is visible exactly when its
resolved text is nonempty. -/
theorem format_items_text_layout (subst : Str → Str) (items : List ItemTexts) :
    (format_items_text subst items).length = items.length ∧
    (∀ (i : Nat) (t : ItemTexts), items[i]? = some t →
      (t.type = [] →
        (format_items_text subst items)[i]? = some { t with menu := t.text }) ∧
      (t.type ≠ [] →
        (format_items_text subst items)[i]? =
          some { t with menu :=
            (buildMenuLine (formatted_texts subst t)
              (fieldMax subst items ItemTexts.type)
              (fieldMax subst items ItemTexts.category)
              (fieldMax subst items ItemTexts.subcategory)
              (fieldMax subst items ItemTexts.status)
              (fieldMax subst items ItemTexts.text)) } ∧
        (ljust (fieldMax subst items ItemTexts.type)
            (formatted_texts subst t).type).length
          = fieldMax subst items ItemTexts.type ∧
        (rjust (fieldMax subst items ItemTexts.category)
            (formatted_texts subst t).category).length
          = fieldMax subst items ItemTexts.category ∧
        (ljust (fieldMax subst items ItemTexts.subcategory)
            (formatted_texts subst t).subcategory).length
          = fieldMax subst items ItemTexts.subcategory ∧
        (rjust (fieldMax subst items ItemTexts.status)
            (formatted_texts subst t).status).length
          = fieldMax subst items ItemTexts.status)) ∧
    (∀ t : ItemTexts, visible t = false ↔ t.text = []) := by
  refine ⟨?_, ?_, ?_⟩
  · by_cases he : (nonRawOf items).isEmpty <;>
      simp [format_items_text, he]
  · intro i t hget
    have hmem : t ∈ items := by
      have h := List.getElem?_eq_some_iff.mp hget
      rcases h with ⟨hlt, heq⟩
      exact heq ▸ List.getElem_mem hlt
    constructor
    · intro hraw
      by_cases he : (nonRawOf items).isEmpty <;>
        simp [format_items_text, he, List.getElem?_map, hget, hraw]
    · intro hnr
      have hne : ¬ (nonRawOf items).isEmpty := by
        intro he
        have hmemnr : t ∈ nonRawOf items := by
          simp only [nonRawOf, List.mem_filter]
          exact ⟨hmem, by simp [hnr]⟩
        rw [List.isEmpty_iff] at he
        rw [he] at hmemnr
        simp at hmemnr
      refine ⟨?_, ?_, ?_, ?_, ?_⟩
      · simp [format_items_text, hne, List.getElem?_map, hget, hnr]
      · exact length_ljust (field_le_fieldMax subst items ItemTexts.type hmem hnr)
      · exact length_rjust (field_le_fieldMax subst items ItemTexts.category hmem hnr)
      · exact length_ljust (field_le_fieldMax subst items ItemTexts.subcategory hmem hnr)
      · exact length_rjust (field_le_fieldMax subst items ItemTexts.status hmem hnr)
  · intro t
    cases ht : t.text <;> simp [visible, ht]

/-- Witness for C4 (amended): the layout equation at a concrete non-raw
item. -/
theorem format_items_text_layout_witness :
    (format_items_text id
        [{ type := "<menu>".data, text := "a".data },
         { type := "<menu>".data, text := "bb".data }])[0]? =
      some { type := "<menu>".data, text := "a".data,
             menu := " <menu>  a".data } := by
  have h := ((format_items_text_layout id
      [{ type := "<menu>".data, text := "a".data },
       { type := "<menu>".data, text := "bb".data }]).2.1 0
      { type := "<menu>".data, text := "a".data } (by rfl)).2 (by decide)
  rw [h.1]
  decide

/-- C4 counterexample: the claim lays out the text column at exactly the
per-field maximum width, but the code appends the text unpadded — with
texts `a` and `bb` the first rendered line has length 10, not the
1 + 6 + 2 + 2 = 11 the equal-width layout demands. -/
theorem format_items_text_text_unpadded :
    ((format_items_text id
        [{ type := "<menu>".data, text := "a".data },
         { type := "<menu>".data, text := "bb".data }])[0]? =
      some { type := "<menu>".data, text := "a".data,
             menu := " <menu>  a".data }) ∧
    (" <menu>  a".data : Str).length ≠
      1 + ("<menu>".data : Str).length + 2 +
        maxNat [("a".data : Str).length, ("bb".data : Str).length] := by
  constructor
  · decide
  · decide

/- Menu.show (menu.py).  After `interface.run` returns `(action,
   selected_item)`, the remaining logic of `Menu.show` is pure: degrade
   `selected` to `back` in loop mode, execute the selected item unless its
   type is `notification`, and return the action with the selected item's
   identifier.  `show_tail` returns the produced `(action, identifier)`
   pair plus whether `execute()` was called; accessing `.identifier` on a
   null selected item in the `selected` branch is an AttributeError. -/

inductive PyExc where
  | valueError
  | attributeError
  | decodeStringError
  | notImplementedError
  | indexError
  | systemExit
deriving DecidableEq

def show_tail (loop_timeout : ℚ) (action0 : NextAction)
    (selected_item : Option MItem) : Except PyExc (NextAction × Str × Bool) :=
  let action :=
    if action0 = NextAction.selected ∧ loop_timeout ≠ 0 then NextAction.back
    else action0
  if action = NextAction.selected then
    match selected_item with
    | none => Except.error PyExc.attributeError
    | some it =>
      Except.ok (action, it.identifier,
        it.texts.type != ItemTextType.notification.val)
  else
    Except.ok (action, (selected_item.map MItem.identifier).getD [], false)

/-- C6: with `loop_timeout > 0`, an interface-reported `selected` is
degraded to `back` and the selected item is not executed. -/
theorem menu_show_loop_guard (lt : ℚ) (sel : Option MItem) (hlt : 0 < lt) :
    show_tail lt NextAction.selected sel =
      Except.ok (NextAction.back, (sel.map MItem.identifier).getD [], false) := by
  have hne : lt ≠ 0 := ne_of_gt hlt
  simp [show_tail, hne]

/-- Witness for C6 at `loop_timeout = 1`. -/
theorem menu_show_loop_guard_witness :
    show_tail 1 NextAction.selected none =
      Except.ok (NextAction.back, [], false) :=
  menu_show_loop_guard 1 none (by norm_num)

deriving instance DecidableEq for Except

/-- C7: a selected item of resolved type `notification` is never executed,
and `execute()` is called only when the resulting action is `selected` and
the item's resolved type differs from `notification`. -/
theorem menu_show_notification_guard (lt : ℚ) (a : NextAction) (sel : Option MItem) :
    (∀ it : MItem, sel = some it →
      it.texts.type = ItemTextType.notification.val →
      ∀ r, show_tail lt a sel = Except.ok r → r.2.2 = false) ∧
    (∀ r, show_tail lt a sel = Except.ok r → r.2.2 = true →
      r.1 = NextAction.selected ∧
      ∃ it, sel = some it ∧ it.texts.type ≠ ItemTextType.notification.val) := by
  by_cases h2 : a = NextAction.selected
  · subst h2
    by_cases hlt : lt = 0
    · subst hlt
      cases sel with
      | none =>
        have he : show_tail 0 NextAction.selected none =
            Except.error PyExc.attributeError := by
          simp [show_tail]
        constructor
        · intro it hsel
          exact absurd hsel (by simp)
        · intro r hr
          rw [he] at hr
          exact absurd hr (by simp)
      | some it =>
        have he : show_tail 0 NextAction.selected (some it) =
            Except.ok (NextAction.selected, it.identifier,
              it.texts.type != ItemTextType.notification.val) := by
          simp [show_tail]
        constructor
        · intro it2 hsel hnotif r hr
          rw [he] at hr
          have hreq := Except.ok.inj hr
          have hit : it = it2 := Option.some.inj hsel
          subst hit
          rw [← hreq]
          simp [hnotif]
        · intro r hr htrue
          rw [he] at hr
          have hreq := Except.ok.inj hr
          rw [← hreq] at htrue
          simp only [] at htrue
          refine ⟨by rw [← hreq], it, rfl, ?_⟩
          have hb : (it.texts.type != ItemTextType.notification.val) = true := htrue
          exact bne_iff_ne.mp hb
    · have he : show_tail lt NextAction.selected sel =
          Except.ok (NextAction.back,
            (sel.map MItem.identifier).getD [], false) := by
        simp [show_tail, hlt]
      constructor
      · intro it hsel hnotif r hr
        rw [he] at hr
        have hreq := Except.ok.inj hr
        rw [← hreq]
      · intro r hr htrue
        rw [he] at hr
        have hreq := Except.ok.inj hr
        rw [← hreq] at htrue
        exact absurd htrue (by simp)
  · have he : show_tail lt a sel =
        Except.ok (a, (sel.map MItem.identifier).getD [], false) := by
      simp [show_tail, h2]
    constructor
    · intro it hsel hnotif r hr
      rw [he] at hr
      have hreq := Except.ok.inj hr
      rw [← hreq]
    · intro r hr htrue
      rw [he] at hr
      have hreq := Except.ok.inj hr
      rw [← hreq] at htrue
      exact absurd htrue (by simp)

/-- Witness for C7: a concrete non-notification selected item is executed. -/
theorem menu_show_notification_guard_witness :
    (show_tail 0 NextAction.selected
        (some ⟨{ type := "<menu>".data, text := "x".data }, "id".data⟩) =
      Except.ok (NextAction.selected, "id".data, true)) ∧
    (NextAction.selected = NextAction.selected ∧
      ∃ it, (some ⟨({ type := "<menu>".data, text := "x".data } : ItemTexts),
          "id".data⟩ : Option MItem) = some it ∧
        it.texts.type ≠ ItemTextType.notification.val) :=
  ⟨by decide,
    (menu_show_notification_guard 0 NextAction.selected
        (some ⟨{ type := "<menu>".data, text := "x".data }, "id".data⟩)).2
      (NextAction.selected, "id".data, true) (by decide) (by decide)⟩

/- Error handling (C5).  `ItemZerotierNetwork.__init__` unpacks
   `kwargs["value"].split(self.delimiter)` into exactly two variables; a
   token count other than two raises ValueError, not DecodeStringError.
   `Menu.show`'s try/except around the text-resolution gather catches
   only DecodeStringError, and child construction happens before it. -/

def zerotier_init_split (value delimiter : Str) : Except PyExc (Str × Str) :=
  match pySplit delimiter value with
  | [network_id, network_name] => Except.ok (network_id, network_name)
  | _ => Except.error PyExc.valueError

/-- The exceptions converted to `("", "")` by `Menu.show`'s handler. -/
def show_gather_catches (e : PyExc) : Bool := e == PyExc.decodeStringError

/-- C5: a zerotier value that does not split into exactly two fields fails
with ValueError — a type the `Menu.show` handler does not catch — not with
DecodeStringError as the spec requires. -/
theorem zerotier_malformed_raises_valueerror :
    zerotier_init_split ("abc".data) ("::".data) = Except.error PyExc.valueError ∧
    PyExc.valueError ≠ PyExc.decodeStringError ∧
    show_gather_catches PyExc.valueError = false := by
  refine ⟨by decide, by decide, by decide⟩

/- ItemRegistry (items.py) and MenuInline's child extraction
   (menu_inline.py).  `get_item_class` dispatches on the stripped,
   lowercased discriminant name (an unknown name is `sys.exit(1)`,
   modelled as `none`); `get_item_type_value` splits an inline child entry
   on the level-1 separator, pops the discriminant, re-joins the rest, and
   re-maps every separator level `i+1` occurring in the value down to the
   separator of level `i`. -/

inductive ItemClass where
  | menuAudio
  | menuInline
  | menuExternal
  | item
  | itemExternal
  | itemSyncthing
  | itemSystemdUnit
  | itemZerotierNetwork
deriving DecidableEq

def get_item_class (name : Str) : Option ItemClass :=
  let n := pyLower (pyStrip name)
  if n = "audiomenu".data then some ItemClass.menuAudio
  else if n = "menu_inline".data then some ItemClass.menuInline
  else if n = "menu_external".data then some ItemClass.menuExternal
  else if n = "item".data then some ItemClass.item
  else if n = "item_external".data then some ItemClass.itemExternal
  else if n = "syncthingmenu".data then some ItemClass.itemSyncthing
  else if n = "systemdunit".data then some ItemClass.itemSystemdUnit
  else if n = "zerotiernetwork".data then some ItemClass.itemZerotierNetwork
  else none

def get_item_type_value (value : Str) (token_separators : List Str) :
    Except PyExc (ItemClass × Str) :=
  match token_separators with
  | _ :: s1 :: _ =>
    match pySplit s1 value with
    | t0 :: rest =>
      match get_item_class t0 with
      | some item_type =>
        let inner_value := pyJoin s1 rest
        let inner_value :=
          (List.range (token_separators.length - 1)).foldl
            (fun acc level =>
              pyReplace acc (token_separators.getD (level + 1) [])
                (token_separators.getD level []))
            inner_value
        Except.ok (item_type, inner_value)
      | none => Except.error PyExc.systemExit
    | [] => Except.error PyExc.indexError
  | _ => Except.error PyExc.indexError

theorem pyReplace_nil (old new : Str) : pyReplace [] old new = [] := by
  rw [pyReplace, pySplit_nil]
  rfl

/-- A leading piece sharing no character with `old` passes through
`replace` untouched. -/
theorem pyReplace_clean_head {old : Str} (hold : old ≠ []) (new : Str) :
    ∀ (p rest : Str), CleanFor old p →
      pyReplace (p ++ rest) old new = p ++ pyReplace rest old new := by
  intro p
  induction p with
  | nil =>
    intro rest _
    simp
  | cons c p ih =>
    intro rest hp
    have hc : c ∉ old := hp c (by simp)
    have hpre : ¬ old.isPrefixOf (c :: (p ++ rest)) :=
      not_isPrefixOf_of_clean hold hc
    have hstep := pySplit_cons_neg c (p ++ rest) hold hpre
    rw [pyReplace, List.cons_append, hstep]
    cases hsp : pySplit old (p ++ rest) with
    | nil => exact absurd hsp (pySplit_ne_nil _ _)
    | cons t ts =>
      rw [pyJoin_cons_cons]
      have hrec := ih rest (fun d hd => hp d (by simp [hd]))
      rw [pyReplace, hsp] at hrec
      rw [hrec]
      rfl

/-- A leading occurrence of `old` itself is replaced by `new`. -/
theorem pyReplace_consume_head {old : Str} (hold : old ≠ []) (new rest : Str) :
    pyReplace (old ++ rest) old new = new ++ pyReplace rest old new := by
  have hstep : pySplit old (old ++ rest) = [] :: pySplit old rest := by
    have h := pySplit_append_clean hold [] rest (by intro c hc; simp at hc)
    simpa using h
  rw [pyReplace, hstep]
  cases hsp : pySplit old rest with
  | nil => exact absurd hsp (pySplit_ne_nil _ _)
  | cons t ts =>
    rw [pyJoin_cons [] (by simp)]
    rw [pyReplace, hsp]
    rfl

/- The level-shift property is stated over a structured view of the child
   value: a word of payload pieces and separator markers.  `renderAtoms`
   flattens the word into the string the code actually receives;
   `shiftAtoms` re-maps every marker of level `i` down to level `i - 1`,
   which is what the claim asserts the code's sequence of `str.replace`
   calls does to the value.  `shiftUpTo j` is the proof-only intermediate
   state after the first `j` replace steps. -/

inductive SepAtom where
  | piece (p : Str)
  | sepMark (level : Nat)

def renderAtoms (seps : List Str) : List SepAtom → Str
  | [] => []
  | SepAtom.piece p :: rest => p ++ renderAtoms seps rest
  | SepAtom.sepMark i :: rest => seps.getD i [] ++ renderAtoms seps rest

def shiftAtoms : List SepAtom → List SepAtom :=
  List.map (fun a =>
    match a with
    | SepAtom.piece p => SepAtom.piece p
    | SepAtom.sepMark i => SepAtom.sepMark (i - 1))

def shiftUpTo (j : Nat) : List SepAtom → List SepAtom :=
  List.map (fun a =>
    match a with
    | SepAtom.piece p => SepAtom.piece p
    | SepAtom.sepMark i =>
      if i ≤ j then SepAtom.sepMark (i - 1) else SepAtom.sepMark i)

/-- Well-formed atom for a separator list: a payload piece shares no
character with any separator; a marker's level is between 1 and the
deepest configured level. -/
def AtomOK (seps : List Str) (a : SepAtom) : Prop :=
  match a with
  | SepAtom.piece p => ∀ s ∈ seps, CleanFor s p
  | SepAtom.sepMark i => 1 ≤ i ∧ i < seps.length

instance (seps : List Str) (a : SepAtom) : Decidable (AtomOK seps a) := by
  cases a with
  | piece p => exact List.decidableBAll (fun s => CleanFor s p) seps
  | sepMark i => exact inferInstanceAs (Decidable (1 ≤ i ∧ i < seps.length))

/-- Pairwise independence of the configured separators: distinct levels
share no character (the spec's own decoding-hazard caveat). -/
def SepsIndep (seps : List Str) : Prop :=
  ∀ a ∈ List.range seps.length, ∀ b ∈ List.range seps.length,
    a ≠ b → CleanFor (seps.getD a []) (seps.getD b [])

instance (seps : List Str) : Decidable (SepsIndep seps) :=
  List.decidableBAll _ (List.range seps.length)

theorem getD_mem_of_lt {seps : List Str} {m : Nat} (hm : m < seps.length) :
    seps.getD m [] ∈ seps := by
  rw [List.getD_eq_getElem seps [] hm]
  exact List.getElem_mem hm

/-- One replace pass `seps[j+1] → seps[j]` over a partially shifted word
shifts exactly the markers of original level `j + 1`. -/
theorem pyReplace_renderAtoms_step (seps : List Str)
    (hne : ∀ s ∈ seps, s ≠ []) (hindep : SepsIndep seps)
    (j : Nat) (hj : j + 1 < seps.length) :
    ∀ atoms : List SepAtom, (∀ a ∈ atoms, AtomOK seps a) →
      pyReplace (renderAtoms seps (shiftUpTo j atoms))
          (seps.getD (j + 1) []) (seps.getD j []) =
        renderAtoms seps (shiftUpTo (j + 1) atoms) := by
  have hold : seps.getD (j + 1) [] ≠ [] := hne _ (getD_mem_of_lt hj)
  intro atoms
  induction atoms with
  | nil =>
    intro _
    exact pyReplace_nil _ _
  | cons a rest ih =>
    intro hok
    have hrest : ∀ b ∈ rest, AtomOK seps b := fun b hb => hok b (by simp [hb])
    cases a with
    | piece p =>
      have hp : ∀ s ∈ seps, CleanFor s p := hok (SepAtom.piece p) (by simp)
      have hclean : CleanFor (seps.getD (j + 1) []) p :=
        hp _ (getD_mem_of_lt hj)
      show pyReplace (p ++ renderAtoms seps (shiftUpTo j rest)) _ _ = _
      rw [pyReplace_clean_head hold _ p _ hclean, ih hrest]
      rfl
    | sepMark i =>
      have hlev : 1 ≤ i ∧ i < seps.length := hok (SepAtom.sepMark i) (by simp)
      by_cases hij : i = j + 1
      · subst hij
        have h1 : ¬ (j + 1 ≤ j) := by omega
        show pyReplace
            (renderAtoms seps (shiftUpTo j (SepAtom.sepMark (j + 1) :: rest))) _ _ = _
        have hrender : renderAtoms seps (shiftUpTo j (SepAtom.sepMark (j + 1) :: rest)) =
            seps.getD (j + 1) [] ++ renderAtoms seps (shiftUpTo j rest) := by
          simp only [shiftUpTo, List.map_cons, if_neg h1]
          rfl
        rw [hrender, pyReplace_consume_head hold, ih hrest]
        have h2 : (j + 1 ≤ j + 1) := Nat.le_refl _
        simp only [shiftUpTo, List.map_cons, if_pos h2]
        have h3 : j + 1 - 1 = j := by omega
        rw [h3]
        rfl
      · have hl : (if i ≤ j then i - 1 else i) ≠ j + 1 := by
          by_cases hle : i ≤ j
          · rw [if_pos hle]
            omega
          · rw [if_neg hle]
            exact hij
        have hllt : (if i ≤ j then i - 1 else i) < seps.length := by
          by_cases hle : i ≤ j
          · rw [if_pos hle]
            omega
          · rw [if_neg hle]
            exact hlev.2
        have hclean : CleanFor (seps.getD (j + 1) [])
            (seps.getD (if i ≤ j then i - 1 else i) []) := by
          apply hindep (j + 1) (List.mem_range.mpr hj) _
            (List.mem_range.mpr hllt)
          exact fun h => hl h.symm
        have hrender : renderAtoms seps (shiftUpTo j (SepAtom.sepMark i :: rest)) =
            seps.getD (if i ≤ j then i - 1 else i) [] ++
              renderAtoms seps (shiftUpTo j rest) := by
          by_cases hle : i ≤ j
          · simp only [shiftUpTo, List.map_cons, if_pos hle]
            rfl
          · simp only [shiftUpTo, List.map_cons, if_neg hle]
            rfl
        have hrender2 : renderAtoms seps (shiftUpTo (j + 1) (SepAtom.sepMark i :: rest)) =
            seps.getD (if i ≤ j then i - 1 else i) [] ++
              renderAtoms seps (shiftUpTo (j + 1) rest) := by
          by_cases hle : i ≤ j
          · have hle2 : i ≤ j + 1 := by omega
            simp only [shiftUpTo, List.map_cons, if_pos hle2, if_pos hle]
            rfl
          · have hle2 : ¬ (i ≤ j + 1) := by omega
            simp only [shiftUpTo, List.map_cons, if_neg hle2, if_neg hle]
            rfl
        rw [hrender, pyReplace_clean_head hold _ _ _ hclean, ih hrest, hrender2]

/-- The code's whole replace fold turns the word shifted up to level 0
(i.e. the original value) into the word shifted at every level. -/
theorem foldl_renderAtoms_shift (seps : List Str)
    (hne : ∀ s ∈ seps, s ≠ []) (hindep : SepsIndep seps)
    (atoms : List SepAtom) (hok : ∀ a ∈ atoms, AtomOK seps a) :
    ∀ j : Nat, j ≤ seps.length - 1 →
      (List.range j).foldl
        (fun acc level =>
          pyReplace acc (seps.getD (level + 1) []) (seps.getD level []))
        (renderAtoms seps (shiftUpTo 0 atoms))
      = renderAtoms seps (shiftUpTo j atoms) := by
  intro j
  induction j with
  | zero =>
    intro _
    rfl
  | succ j ih =>
    intro hj
    have hj' : j ≤ seps.length - 1 := by omega
    have hjlt : j + 1 < seps.length := by omega
    rw [List.range_succ, List.foldl_append, ih hj']
    simp only [List.foldl_cons, List.foldl_nil]
    exact pyReplace_renderAtoms_step seps hne hindep j hjlt atoms hok

theorem shiftUpTo_zero {seps : List Str} :
    ∀ atoms : List SepAtom, (∀ a ∈ atoms, AtomOK seps a) →
      shiftUpTo 0 atoms = atoms := by
  intro atoms
  induction atoms with
  | nil =>
    intro _
    rfl
  | cons a rest ih =>
    intro hok
    have hr := ih (fun b hb => hok b (by simp [hb]))
    cases a with
    | piece p =>
      simp only [shiftUpTo, List.map_cons]
      rw [shiftUpTo] at hr
      rw [hr]
    | sepMark i =>
      have hlev : 1 ≤ i ∧ i < seps.length := hok (SepAtom.sepMark i) (by simp)
      have h0 : ¬ (i ≤ 0) := by omega
      simp only [shiftUpTo, List.map_cons, if_neg h0]
      rw [shiftUpTo] at hr
      rw [hr]

theorem shiftUpTo_full {seps : List Str} :
    ∀ atoms : List SepAtom, (∀ a ∈ atoms, AtomOK seps a) →
      shiftUpTo (seps.length - 1) atoms = shiftAtoms atoms := by
  intro atoms
  induction atoms with
  | nil =>
    intro _
    rfl
  | cons a rest ih =>
    intro hok
    have hr := ih (fun b hb => hok b (by simp [hb]))
    cases a with
    | piece p =>
      simp only [shiftUpTo, shiftAtoms, List.map_cons]
      rw [shiftUpTo, shiftAtoms] at hr
      rw [hr]
    | sepMark i =>
      have hlev : 1 ≤ i ∧ i < seps.length := hok (SepAtom.sepMark i) (by simp)
      have hle : i ≤ seps.length - 1 := by omega
      simp only [shiftUpTo, shiftAtoms, List.map_cons, if_pos hle]
      rw [shiftUpTo, shiftAtoms] at hr
      rw [hr]

/-- C8: an inline child entry `name ++ sep1 ++ v`, where `v` is any word of
payload pieces and separator markers of levels 1 and deeper (pieces clean
for the pairwise independent separators), resolves to the constructor
registered for `name` together with `v` in which every marker of each
level `i + 1` has been re-mapped down to the separator of level `i` — so
the child value parsed in isolation is a level-0-rooted string. -/
theorem get_item_type_value_level_shift
    (s0 s1 name : Str) (restSeps : List Str) (atoms : List SepAtom)
    (k : ItemClass)
    (hname : CleanFor s1 name)
    (hk : get_item_class name = some k)
    (hne : ∀ s ∈ (s0 :: s1 :: restSeps), s ≠ [])
    (hindep : SepsIndep (s0 :: s1 :: restSeps))
    (hok : ∀ a ∈ atoms, AtomOK (s0 :: s1 :: restSeps) a) :
    get_item_type_value (name ++ s1 ++ renderAtoms (s0 :: s1 :: restSeps) atoms)
        (s0 :: s1 :: restSeps) =
      Except.ok (k, renderAtoms (s0 :: s1 :: restSeps) (shiftAtoms atoms)) := by
  have hs1 : s1 ≠ [] := hne s1 (by simp)
  have hsp : pySplit s1 (name ++ s1 ++ renderAtoms (s0 :: s1 :: restSeps) atoms) =
      name :: pySplit s1 (renderAtoms (s0 :: s1 :: restSeps) atoms) :=
    pySplit_append_clean hs1 name _ hname
  simp only [get_item_type_value, hsp, hk]
  have hjoin : pyJoin s1 (pySplit s1 (renderAtoms (s0 :: s1 :: restSeps) atoms)) =
      renderAtoms (s0 :: s1 :: restSeps) atoms :=
    pyJoin_pySplit s1 _
  rw [hjoin]
  have hstart : renderAtoms (s0 :: s1 :: restSeps) atoms =
      renderAtoms (s0 :: s1 :: restSeps) (shiftUpTo 0 atoms) := by
    rw [shiftUpTo_zero atoms hok]
  rw [hstart,
    foldl_renderAtoms_shift (s0 :: s1 :: restSeps) hne hindep atoms hok
      ((s0 :: s1 :: restSeps).length - 1) (Nat.le_refl _),
    shiftUpTo_full atoms hok]

/-- Witness for C8: with the default separators, the child value `x;;y`
(a level-2 separator inside the piece list) is re-mapped to `x,,y`. -/
theorem get_item_type_value_level_shift_witness :
    get_item_type_value
        ("menu_inline".data ++ ",,".data ++
          renderAtoms ["::".data, ",,".data, ";;".data]
            [SepAtom.piece ("x".data), SepAtom.sepMark 2, SepAtom.piece ("y".data)])
        ["::".data, ",,".data, ";;".data] =
      Except.ok (ItemClass.menuInline,
        renderAtoms ["::".data, ",,".data, ";;".data]
          (shiftAtoms
            [SepAtom.piece ("x".data), SepAtom.sepMark 2, SepAtom.piece ("y".data)])) :=
  get_item_type_value_level_shift ("::".data) (",,".data) ("menu_inline".data)
    [";;".data]
    [SepAtom.piece ("x".data), SepAtom.sepMark 2, SepAtom.piece ("y".data)]
    ItemClass.menuInline
    (by decide) (by decide) (by decide) (by decide) (by decide)

/- SharedCache (BaseItem.get_shared_data / set_shared_data).  K sibling
   tasks of one variant each run `get_shared_data()`: await the class
   lock, check the shared dict for the variant's key, compute and store
   the value via `set_shared_data()` when absent, leave the `async with`
   block (releasing the lock), then return `self.shared[self.item_type]`.
   The asyncio interleaving is modelled as a small-step relation: each
   constructor of `CacheStep` is one segment of the coroutine between
   suspension points, steps of distinct tasks interleave arbitrarily, and
   the lock premises encode `asyncio.Lock`.  `v` is the value the
   variant's (deterministic) `set_shared_data()` produces, and `count`
   counts its invocations.  The dict starts empty: `Menu.show` clears it
   at the start of the navigation step. -/

inductive CachePC (V : Type) where
  | start
  | entered
  | needCompute
  | haveValue
  | released
  | finished (ret : V)

structure CacheState (V : Type) where
  tasks : List (CachePC V)
  owner : Option Nat
  shared : Option V
  count : Nat

inductive CacheStep (V : Type) (v : V) : CacheState V → CacheState V → Prop where
  | acquire (σ : CacheState V) (i : Nat)
      (hpc : σ.tasks[i]? = some CachePC.start) (hfree : σ.owner = none) :
      CacheStep V v σ
        { σ with tasks := σ.tasks.set i CachePC.entered, owner := some i }
  | check_miss (σ : CacheState V) (i : Nat)
      (hpc : σ.tasks[i]? = some CachePC.entered) (hown : σ.owner = some i)
      (hs : σ.shared = none) :
      CacheStep V v σ { σ with tasks := σ.tasks.set i CachePC.needCompute }
  | check_hit (σ : CacheState V) (i : Nat) (w : V)
      (hpc : σ.tasks[i]? = some CachePC.entered) (hown : σ.owner = some i)
      (hs : σ.shared = some w) :
      CacheStep V v σ { σ with tasks := σ.tasks.set i CachePC.haveValue }
  | compute (σ : CacheState V) (i : Nat)
      (hpc : σ.tasks[i]? = some CachePC.needCompute) (hown : σ.owner = some i) :
      CacheStep V v σ
        { σ with tasks := σ.tasks.set i CachePC.haveValue,
                 shared := some v, count := σ.count + 1 }
  | release (σ : CacheState V) (i : Nat)
      (hpc : σ.tasks[i]? = some CachePC.haveValue) (hown : σ.owner = some i) :
      CacheStep V v σ
        { σ with tasks := σ.tasks.set i CachePC.released, owner := none }
  | readShared (σ : CacheState V) (i : Nat) (w : V)
      (hpc : σ.tasks[i]? = some CachePC.released) (hs : σ.shared = some w) :
      CacheStep V v σ { σ with tasks := σ.tasks.set i (CachePC.finished w) }

def initCache (V : Type) (K : Nat) : CacheState V :=
  { tasks := List.replicate K CachePC.start, owner := none,
    shared := none, count := 0 }

def midPhase {V : Type} (pc : CachePC V) : Prop :=
  pc = CachePC.entered ∨ pc = CachePC.needCompute ∨ pc = CachePC.haveValue

structure CacheInv (V : Type) (v : V) (K : Nat) (σ : CacheState V) : Prop where
  len_eq : σ.tasks.length = K
  count_eq : σ.count = (if σ.shared.isSome then 1 else 0)
  owner_mid : ∀ (i : Nat) (pc : CachePC V),
    σ.tasks[i]? = some pc → midPhase pc → σ.owner = some i
  need_none : ∀ i : Nat,
    σ.tasks[i]? = some CachePC.needCompute → σ.shared = none
  shared_v : ∀ w : V, σ.shared = some w → w = v
  fin_shared : ∀ (i : Nat) (w : V),
    σ.tasks[i]? = some (CachePC.finished w) → σ.shared = some w

theorem set_getElem?_same {α : Type} {l : List α} {i : Nat} {a b : α}
    (h : l[i]? = some b) : (l.set i a)[i]? = some a := by
  have hi : i < l.length := (List.getElem?_eq_some_iff.mp h).1
  simp [List.getElem?_set_self, hi]

theorem set_getElem?_other {α : Type} {l : List α} {i j : Nat} {a : α}
    (hij : j ≠ i) : (l.set i a)[j]? = l[j]? :=
  List.getElem?_set_ne (fun h => hij h.symm)

theorem cacheInv_init (V : Type) (v : V) (K : Nat) :
    CacheInv V v K (initCache V K) := by
  refine ⟨by simp [initCache], by simp [initCache], ?_, ?_, ?_, ?_⟩
  · intro i pc hpc hmid
    have : pc = CachePC.start := by
      simp only [initCache, List.getElem?_replicate] at hpc
      by_cases hi : i < K
      · rw [if_pos hi] at hpc
        exact (Option.some.inj hpc).symm
      · rw [if_neg hi] at hpc
        exact absurd hpc (by simp)
    subst this
    rcases hmid with h | h | h <;> exact absurd h (by simp)
  · intro i hpc
    simp only [initCache, List.getElem?_replicate] at hpc
    by_cases hi : i < K
    · rw [if_pos hi] at hpc
      exact absurd (Option.some.inj hpc) (by simp)
    · rw [if_neg hi] at hpc
      exact absurd hpc (by simp)
  · intro w hw
    simp only [initCache] at hw
    exact absurd hw (by simp)
  · intro i w hpc
    simp only [initCache, List.getElem?_replicate] at hpc
    by_cases hi : i < K
    · rw [if_pos hi] at hpc
      exact absurd (Option.some.inj hpc) (by simp)
    · rw [if_neg hi] at hpc
      exact absurd hpc (by simp)

theorem cacheInv_step {V : Type} {v : V} {K : Nat} {σ σ' : CacheState V}
    (hinv : CacheInv V v K σ) (hstep : CacheStep V v σ σ') :
    CacheInv V v K σ' := by
  cases hstep with
  | acquire i hpc hfree =>
    refine ⟨?_, hinv.count_eq, ?_, ?_, hinv.shared_v, ?_⟩
    · rw [List.length_set]
      exact hinv.len_eq
    · intro j pc hj hmid
      by_cases hji : j = i
      · subst hji
        rfl
      · rw [set_getElem?_other hji] at hj
        have h1 := hinv.owner_mid j pc hj hmid
        rw [hfree] at h1
        exact absurd h1 (by simp)
    · intro j hj
      by_cases hji : j = i
      · subst hji
        rw [set_getElem?_same hpc] at hj
        exact absurd (Option.some.inj hj) (by simp)
      · rw [set_getElem?_other hji] at hj
        exact hinv.need_none j hj
    · intro j w hj
      by_cases hji : j = i
      · subst hji
        rw [set_getElem?_same hpc] at hj
        exact absurd (Option.some.inj hj) (by simp)
      · rw [set_getElem?_other hji] at hj
        exact hinv.fin_shared j w hj
  | check_miss i hpc hown hs =>
    refine ⟨?_, hinv.count_eq, ?_, fun _ _ => hs, hinv.shared_v, ?_⟩
    · rw [List.length_set]
      exact hinv.len_eq
    · intro j pc hj hmid
      by_cases hji : j = i
      · subst hji
        exact hown
      · rw [set_getElem?_other hji] at hj
        exact hinv.owner_mid j pc hj hmid
    · intro j w hj
      by_cases hji : j = i
      · subst hji
        rw [set_getElem?_same hpc] at hj
        exact absurd (Option.some.inj hj) (by simp)
      · rw [set_getElem?_other hji] at hj
        exact hinv.fin_shared j w hj
  | check_hit i w hpc hown hs =>
    refine ⟨?_, hinv.count_eq, ?_, ?_, hinv.shared_v, ?_⟩
    · rw [List.length_set]
      exact hinv.len_eq
    · intro j pc hj hmid
      by_cases hji : j = i
      · subst hji
        exact hown
      · rw [set_getElem?_other hji] at hj
        exact hinv.owner_mid j pc hj hmid
    · intro j hj
      by_cases hji : j = i
      · subst hji
        rw [set_getElem?_same hpc] at hj
        exact absurd (Option.some.inj hj) (by simp)
      · rw [set_getElem?_other hji] at hj
        exact hinv.need_none j hj
    · intro j w2 hj
      by_cases hji : j = i
      · subst hji
        rw [set_getElem?_same hpc] at hj
        exact absurd (Option.some.inj hj) (by simp)
      · rw [set_getElem?_other hji] at hj
        exact hinv.fin_shared j w2 hj
  | compute i hpc hown =>
    have hnone : σ.shared = none := hinv.need_none i hpc
    refine ⟨?_, ?_, ?_, ?_, ?_, ?_⟩
    · rw [List.length_set]
      exact hinv.len_eq
    · have h0 : σ.count = 0 := by
        rw [hinv.count_eq, hnone]
        rfl
      rw [h0]
      rfl
    · intro j pc hj hmid
      by_cases hji : j = i
      · subst hji
        exact hown
      · rw [set_getElem?_other hji] at hj
        have h1 := hinv.owner_mid j pc hj hmid
        rw [hown] at h1
        exact absurd (Option.some.inj h1).symm hji
    · intro j hj
      by_cases hji : j = i
      · subst hji
        rw [set_getElem?_same hpc] at hj
        exact absurd (Option.some.inj hj) (by simp)
      · rw [set_getElem?_other hji] at hj
        have h1 := hinv.owner_mid j CachePC.needCompute hj
          (Or.inr (Or.inl rfl))
        rw [hown] at h1
        exact absurd (Option.some.inj h1).symm hji
    · intro w hw
      exact (Option.some.inj hw).symm
    · intro j w hj
      by_cases hji : j = i
      · subst hji
        rw [set_getElem?_same hpc] at hj
        exact absurd (Option.some.inj hj) (by simp)
      · rw [set_getElem?_other hji] at hj
        have h1 := hinv.fin_shared j w hj
        rw [hnone] at h1
        exact absurd h1 (by simp)
  | release i hpc hown =>
    refine ⟨?_, hinv.count_eq, ?_, ?_, hinv.shared_v, ?_⟩
    · rw [List.length_set]
      exact hinv.len_eq
    · intro j pc hj hmid
      by_cases hji : j = i
      · subst hji
        rw [set_getElem?_same hpc] at hj
        have hpc2 := Option.some.inj hj
        subst hpc2
        rcases hmid with h | h | h <;> exact absurd h (by simp)
      · rw [set_getElem?_other hji] at hj
        have h1 := hinv.owner_mid j pc hj hmid
        rw [hown] at h1
        exact absurd (Option.some.inj h1).symm hji
    · intro j hj
      by_cases hji : j = i
      · subst hji
        rw [set_getElem?_same hpc] at hj
        exact absurd (Option.some.inj hj) (by simp)
      · rw [set_getElem?_other hji] at hj
        exact hinv.need_none j hj
    · intro j w hj
      by_cases hji : j = i
      · subst hji
        rw [set_getElem?_same hpc] at hj
        exact absurd (Option.some.inj hj) (by simp)
      · rw [set_getElem?_other hji] at hj
        exact hinv.fin_shared j w hj
  | readShared i w hpc hs =>
    refine ⟨?_, hinv.count_eq, ?_, ?_, hinv.shared_v, ?_⟩
    · rw [List.length_set]
      exact hinv.len_eq
    · intro j pc hj hmid
      by_cases hji : j = i
      · subst hji
        rw [set_getElem?_same hpc] at hj
        have hpc2 := Option.some.inj hj
        subst hpc2
        rcases hmid with h | h | h <;> exact absurd h (by simp)
      · rw [set_getElem?_other hji] at hj
        exact hinv.owner_mid j pc hj hmid
    · intro j hj
      by_cases hji : j = i
      · subst hji
        rw [set_getElem?_same hpc] at hj
        exact absurd (Option.some.inj hj) (by simp)
      · rw [set_getElem?_other hji] at hj
        exact hinv.need_none j hj
    · intro j w2 hj
      by_cases hji : j = i
      · subst hji
        rw [set_getElem?_same hpc] at hj
        have h1 := Option.some.inj hj
        have h2 : w2 = w := by
          cases h1
          rfl
        subst h2
        exact hs
      · rw [set_getElem?_other hji] at hj
        exact hinv.fin_shared j w2 hj

/-- C9: within one navigation step (the dict starts cleared), for any K
concurrent `get_shared_data()` calls of one variant, any interleaving that
completes all K tasks invokes `set_shared_data()` exactly once and every
task returns the same stored value. -/
theorem shared_cache_once (V : Type) (v : V) (K : Nat) (hK : 1 ≤ K)
    (σ : CacheState V)
    (hreach : Relation.ReflTransGen (CacheStep V v) (initCache V K) σ)
    (hdone : ∀ pc ∈ σ.tasks, ∃ w, pc = CachePC.finished w) :
    σ.count = 1 ∧ σ.tasks = List.replicate K (CachePC.finished v) := by
  have hinv : CacheInv V v K σ := by
    clear hdone
    induction hreach with
    | refl => exact cacheInv_init V v K
    | tail hab hbc ih => exact cacheInv_step ih hbc
  have hfin : ∀ j : Nat, j < K → σ.tasks[j]? = some (CachePC.finished v) := by
    intro j hj
    have hjlen : j < σ.tasks.length := by
      rw [hinv.len_eq]
      exact hj
    have hpc : σ.tasks[j]? = some σ.tasks[j] := List.getElem?_eq_getElem hjlen
    have hmem : σ.tasks[j] ∈ σ.tasks := List.getElem_mem hjlen
    obtain ⟨w, hw⟩ := hdone _ hmem
    rw [hw] at hpc
    have hsh : σ.shared = some w := hinv.fin_shared j w hpc
    have hwv : w = v := hinv.shared_v w hsh
    rw [hwv] at hpc
    exact hpc
  constructor
  · have h0 : σ.tasks[0]? = some (CachePC.finished v) := hfin 0 hK
    have hsh : σ.shared = some v := hinv.fin_shared 0 v h0
    rw [hinv.count_eq, hsh]
    rfl
  · apply List.ext_getElem?
    intro j
    by_cases hj : j < K
    · rw [hfin j hj, List.getElem?_replicate, if_pos hj]
    · have h1 : σ.tasks[j]? = none := by
        apply List.getElem?_eq_none
        rw [hinv.len_eq]
        omega
      rw [h1, List.getElem?_replicate, if_neg hj]

/-- Witness for C9: an explicit complete interleaving for one task
(acquire, miss, compute, release, read) ends with one computation and the
stored value returned. -/
theorem shared_cache_once_witness :
    ({ tasks := [CachePC.finished (7 : Nat)], owner := none, shared := some 7,
       count := 1 } : CacheState Nat).count = 1 ∧
    ({ tasks := [CachePC.finished (7 : Nat)], owner := none, shared := some 7,
       count := 1 } : CacheState Nat).tasks
      = List.replicate 1 (CachePC.finished (7 : Nat)) := by
  refine shared_cache_once Nat 7 1 (by decide) _ ?_ ?_
  · exact Relation.ReflTransGen.head (CacheStep.acquire _ 0 rfl rfl)
      (Relation.ReflTransGen.head (CacheStep.check_miss _ 0 rfl rfl rfl)
        (Relation.ReflTransGen.head (CacheStep.compute _ 0 rfl rfl)
          (Relation.ReflTransGen.head (CacheStep.release _ 0 rfl rfl)
            (Relation.ReflTransGen.head (CacheStep.readShared _ 0 7 rfl rfl)
              Relation.ReflTransGen.refl))))
  · intro pc hpc
    rw [List.mem_singleton] at hpc
    exact ⟨7, hpc⟩
